import Mathlib

/-!
Verification of the BookConverter pipeline: a shallow embedding of the
extraction (html_to_json_converter.py), pagination/emission
(json_to_docx_converter.py) and direct-conversion (html_to_docx_converter.py)
source files, together with theorems settling the specification claims.

Text is modelled as `List Char`; HTML as a tree of `Node`s; fallible code
returns `Except`.
-/

/-- Characters matched by Python's regex class \s on str and stripped by
str.strip(): ASCII whitespace plus the Unicode White_Space code points. -/
def pyIsSpace (c : Char) : Bool :=
  let n := c.toNat
  (9 ≤ n && n ≤ 13) || n == 32 || (28 ≤ n && n ≤ 31) || n == 133 || n == 160 ||
  n == 0x1680 || (0x2000 ≤ n && n ≤ 0x200a) || n == 0x2028 || n == 0x2029 ||
  n == 0x202f || n == 0x205f || n == 0x3000

/-- Python str.strip(): drop whitespace from both ends. -/
def stripWS (l : List Char) : List Char :=
  ((l.dropWhile pyIsSpace).reverse.dropWhile pyIsSpace).reverse

/-- Embedding of re.sub(r"\s+", " ", text): every maximal run of whitespace
becomes a single ASCII space — within a run only its last character emits the
space.  (`html_to_json_converter.normalize_html_whitespace`, first step.) -/
def collapseWS : List Char → List Char
  | [] => []
  | [c] => if pyIsSpace c then [' '] else [c]
  | c :: d :: rest =>
    if pyIsSpace c then
      if pyIsSpace d then collapseWS (d :: rest)
      else ' ' :: collapseWS (d :: rest)
    else c :: collapseWS (d :: rest)

/-- `normalize_html_whitespace` from html_to_json_converter.py: empty input is
returned as is (Python falsy check), otherwise collapse whitespace runs and trim. -/
def normalize_html_whitespace (l : List Char) : List Char :=
  if l = [] then l else stripWS (collapseWS l)

/-- Split at every single whitespace character (re.split over one \s each),
keeping empty pieces. -/
def splitChar : List Char → List (List Char)
  | [] => [[]]
  | c :: cs =>
    if pyIsSpace c then [] :: splitChar cs
    else
      match splitChar cs with
      | [] => [[c]]
      | w :: rest => (c :: w) :: rest

/-- Python str.split() with no separator: split on whitespace, dropping the
empty pieces. -/
def wordsOf (l : List Char) : List (List Char) :=
  (splitChar l).filter (fun w => w ≠ [])

/-- Python " ".join(words). -/
def joinSp : List (List Char) → List Char
  | [] => []
  | [w] => w
  | w :: ws => w ++ ' ' :: joinSp ws

/-! ## Roman numerals -/

/-- The seven Roman numeral characters (uppercase), the keys of roman_dict in
`html_to_json_converter.roman_to_int`. -/
def romanChars : List Char := ['I', 'V', 'X', 'L', 'C', 'D', 'M']

/-- The exact character set matched by the class [IVXLCDM] under Python's
re.IGNORECASE: a character matches when its simple Unicode lowercase is one of
i, v, x, l, c, d, m or the dotless ı (which the regex engine's extra
equivalences pair with i).  Besides the ASCII letters in both cases this
admits the Turkish dotless ı (U+0131) and the dotted İ (U+0130, whose simple
lowercase is i). -/
def isRomanCharCI (c : Char) : Bool :=
  ['I', 'i', 'İ', 'ı', 'V', 'v', 'X', 'x', 'L', 'l',
   'C', 'c', 'D', 'd', 'M', 'm'].contains c

/-- roman_dict of `roman_to_int` (0 for characters outside the dictionary;
used by the spec-side value formulation). -/
def romanVal (c : Char) : Int :=
  if c = 'I' then 1 else if c = 'V' then 5 else if c = 'X' then 10
  else if c = 'L' then 50 else if c = 'C' then 100 else if c = 'D' then 500
  else if c = 'M' then 1000 else 0

/-- roman_dict of `roman_to_int` as the lookup the loop performs: defined on
exactly the seven keys, None elsewhere. -/
def romanDictVal? (c : Char) : Option Int :=
  if c = 'I' then some 1 else if c = 'V' then some 5 else if c = 'X' then some 10
  else if c = 'L' then some 50 else if c = 'C' then some 100
  else if c = 'D' then some 500 else if c = 'M' then some 1000 else none

/-- Python str.upper on the characters a validated token can contain: ASCII
letters map to their uppercase, the dotless ı (U+0131) upper-cases to I, and
the dotted İ (U+0130) is its own uppercase — so İ reaches the conversion loop
unchanged.  (Lean's Char.toUpper leaves every other non-ASCII character
unchanged; such characters never pass validation, so multi-character Python
upper-casings like ß are unreachable here.) -/
def pyUpper (c : Char) : Char := if c = 'ı' then 'I' else c.toUpper

/-- The right-to-left accumulation loop of `roman_to_int`: state is
(result, prev_value), processing `reversed(roman)` left to right. -/
def romanFoldStep (st : Int × Int) (c : Char) : Int × Int :=
  let v := romanVal c
  (if v ≥ st.2 then st.1 + v else st.1 - v, v)

/-- The for-loop of `roman_to_int` over the reversed upper-cased token:
raises on the first character that is not a roman_dict key (reachable, since
İ survives upper-casing), otherwise adds the value when it is ≥ the
previously processed value and subtracts it otherwise. -/
def romanLoopRL : List Char → Int → Int → Except (List Char) Int
  | [], result, _ => .ok result
  | c :: rest, result, prev =>
    match romanDictVal? c with
    | none => .error ('I' :: 'n' :: 'v' :: 'a' :: 'l' :: 'i' :: 'd' :: ' ' :: [c])
    | some v => romanLoopRL rest (if v ≥ prev then result + v else result - v) v

/-- `html_to_json_converter.roman_to_int`: validate against ^[IVXLCDM]+$ with
re.IGNORECASE (a class that also admits ı and İ), upper-case Python-style,
then run the right-to-left loop, which itself raises on any character outside
roman_dict. -/
def roman_to_int (l : List Char) : Except (List Char) Int :=
  if l ≠ [] ∧ l.all isRomanCharCI then
    romanLoopRL (l.map pyUpper).reverse 0 0
  else
    .error ('I' :: 'n' :: 'v' :: 'a' :: 'l' :: 'i' :: 'd' :: ' ' :: l)

/-- The value/symbol table of `json_to_docx_converter.roman_numeral`. -/
def romanPairs : List (Nat × List Char) :=
  [(1000, ['M']), (900, ['C', 'M']), (500, ['D']), (400, ['C', 'D']),
   (100, ['C']), (90, ['X', 'C']), (50, ['L']), (40, ['X', 'L']),
   (10, ['X']), (9, ['I', 'X']), (5, ['V']), (4, ['I', 'V']), (1, ['I'])]

/-- A symbol repeated k times, as emitted by the inner for-loop of
`roman_numeral`. -/
def repList : Nat → List Char → List Char
  | 0, _ => []
  | k + 1, s => s ++ repList k s

/-- The while-loop of `roman_numeral`: at each table entry emit the symbol
num / val times and continue with num % val (equivalent to repeatedly
subtracting val). -/
def romanNumeralAux : List (Nat × List Char) → Nat → List Char
  | [], _ => []
  | (v, s) :: rest, num => repList (num / v) s ++ romanNumeralAux rest (num % v)

/-- `json_to_docx_converter.roman_numeral`: greedy integer-to-Roman conversion. -/
def roman_numeral (num : Nat) : List Char := romanNumeralAux romanPairs num

/-- The round trip of spec §8: toRoman (fromRoman (toRoman n)), with the empty
string on a parse failure (which never occurs on toRoman output). -/
def romanRoundTrip (n : Nat) : List Char :=
  match roman_to_int (roman_numeral n) with
  | .ok m => roman_numeral m.toNat
  | .error _ => []

/-- Modelled from the claim wording of C7 (spec §4.1): processing the token
right to left means each character contributes +value when its value is ≥ the
value of the character immediately to its right, and -value otherwise; written
here as a left-to-right recursion, structurally unlike the reversed fold of the
source. -/
def romanSpecVal : List Char → Int
  | [] => 0
  | [c] => romanVal c
  | c :: d :: rest =>
    (if romanVal c ≥ romanVal d then romanVal c else -romanVal c) +
      romanSpecVal (d :: rest)

/-! ## HTML model

A BeautifulSoup parse tree: a node is either a NavigableString or a Tag with a
name, attributes and children. -/

inductive Node where
  | text : List Char → Node
  | elem : String → List (String × String) → List Node → Node

/-- Tag name (None for NavigableStrings, as in BeautifulSoup). -/
def Node.tagName : Node → Option String
  | .text _ => none
  | .elem nm _ _ => some nm

/-- Attribute lookup, element.get(key). -/
def Node.attr : Node → String → Option String
  | .text _, _ => none
  | .elem _ attrs _, k => attrs.lookup k

/-- Children of a tag. -/
def Node.children : Node → List Node
  | .text _ => []
  | .elem _ _ ch => ch

/-- Whether a node is a NavigableString. -/
def Node.isText : Node → Bool
  | .text _ => true
  | .elem _ _ _ => false

mutual
/-- element.get_text(): concatenation of all text descendants. -/
def Node.getText : Node → List Char
  | .text s => s
  | .elem _ _ ch => getTextList ch
def getTextList : List Node → List Char
  | [] => []
  | n :: ns => n.getText ++ getTextList ns
end

mutual
/-- element.get_text(strip=True): concatenation of the individually stripped
text descendants. -/
def Node.getTextStrip : Node → List Char
  | .text s => stripWS s
  | .elem _ _ ch => getTextStripList ch
def getTextStripList : List Node → List Char
  | [] => []
  | n :: ns => n.getTextStrip ++ getTextStripList ns
end

mutual
/-- All element (tag) nodes of a tree in document (pre)order, the node itself
included: soup.find_all() seen from the document root. -/
def Node.allElems : Node → List Node
  | .text _ => []
  | .elem nm attrs ch => .elem nm attrs ch :: allElemsList ch
def allElemsList : List Node → List Node
  | [] => []
  | n :: ns => n.allElems ++ allElemsList ns
end

/-- Element descendants of a node, the node itself excluded (element.find_all
seen from an inner element, or collect_elements over body.children). -/
def Node.innerElems : Node → List Node
  | .text _ => []
  | .elem _ _ ch => allElemsList ch

/-! ## html_to_json_converter.py: extraction -/

/-- `has_text_content`: br and hr never count; otherwise the stripped text must
be non-empty. -/
def has_text_content (n : Node) : Bool :=
  if n.tagName = some "br" ∨ n.tagName = some "hr" then false
  else n.getTextStrip ≠ []

/-- Does `l` start with `pat` (exact characters)? -/
def startsWithList : List Char → List Char → Bool
  | [], _ => true
  | _ :: _, [] => false
  | p :: ps, c :: cs => p = c && startsWithList ps cs

/-- Python substring containment: `pat in s`. -/
def containsSub (pat : List Char) : List Char → Bool
  | [] => startsWithList pat []
  | c :: cs => startsWithList pat (c :: cs) || containsSub pat cs

/-- Case-insensitive literal match: does `l` start with the (uppercase) pattern
`p`?  Returns the rest of `l` on success. -/
def ciStartsWith : List Char → List Char → Option (List Char)
  | [], l => some l
  | _ :: _, [] => none
  | p :: ps, c :: cs => if c.toUpper = p then ciStartsWith ps cs else none

/-- One anchored attempt of the pattern CHAPTER\s+[IVXLCDM]+ with
re.IGNORECASE: the keyword, at least one whitespace, at least one Roman
character. -/
def matchChapterAt (l : List Char) : Bool :=
  match ciStartsWith ['C', 'H', 'A', 'P', 'T', 'E', 'R'] l with
  | none => false
  | some r1 =>
    let r2 := r1.dropWhile pyIsSpace
    decide (r2.length < r1.length) &&
      (match r2 with
       | c :: _ => isRomanCharCI c
       | [] => false)

/-- re.search(r"CHAPTER\s+[IVXLCDM]+", text, re.IGNORECASE): try the anchored
match at every suffix. -/
def searchChapterRoman : List Char → Bool
  | [] => false
  | c :: cs => matchChapterAt (c :: cs) || searchChapterRoman cs

/-- The chapter-heading filter of convert_html_to_json: an h2 whose stripped
text contains CHAPTER followed by a Roman-numeral token. -/
def isChapterHeadingNode (n : Node) : Bool :=
  n.tagName = some "h2" && searchChapterRoman n.getTextStrip

/-- Extraction failures (`ExtractionError` in the spec's taxonomy). -/
inductive ExtractFail where
  | headingShape (text : List Char)
  | romanFail (text : List Char)
  | unrecognizedSibling (nm : String)
  | nestedTag (inner : String) (outer : String)
deriving DecidableEq

/-- `parse_chapter_heading`: anchored match of
CHAPTER\s+([IVXLCDM]+)\s+—\s+(.+) with re.IGNORECASE; on success the Roman
token is converted and the title group is stripped. -/
def parse_chapter_heading (l : List Char) : Except ExtractFail (Int × List Char) :=
  match ciStartsWith ['C', 'H', 'A', 'P', 'T', 'E', 'R'] l with
  | none => .error (.headingShape l)
  | some r1 =>
    let r2 := r1.dropWhile pyIsSpace
    if r2.length = r1.length then .error (.headingShape l)
    else
      let rom := r2.takeWhile isRomanCharCI
      let r3 := r2.dropWhile isRomanCharCI
      if rom = [] then .error (.headingShape l)
      else
        let r4 := r3.dropWhile pyIsSpace
        if r4.length = r3.length then .error (.headingShape l)
        else
          match r4 with
          | '—' :: r5 =>
            let r6 := r5.dropWhile pyIsSpace
            if r6.length = r5.length then .error (.headingShape l)
            else
              let title := r6.takeWhile (fun c => c ≠ '\n')
              if title = [] then .error (.headingShape l)
              else
                match roman_to_int rom with
                | .ok n => .ok (n, stripWS title)
                | .error _ => .error (.romanFail rom)
          | _ => .error (.headingShape l)

/-- `validate_element_in_strict_mode`: inside an accepted block every child
must be a NavigableString; the first tag child is reported. -/
def childrenAllText (n : Node) : Bool := n.children.all Node.isText

/-- A content block of the JSON model: a plain paragraph or a quote object. -/
inductive Block where
  | para : List Char → Block
  | quote : List Char → Block
deriving DecidableEq

/-- The h3 THE END exemption of the strict-mode walk. -/
def isTheEndMarker (n : Node) : Bool :=
  n.tagName = some "h3" && n.getTextStrip = ('T' :: 'H' :: 'E' :: ' ' :: 'E' :: 'N' :: 'D' :: [])

/-- The Project Gutenberg footer exemption: a section whose stripped text
contains the fixed marker phrase. -/
def isGutenbergFooter (n : Node) : Bool :=
  n.tagName = some "section" &&
    containsSub
      ('E' :: 'N' :: 'D' :: ' ' :: 'O' :: 'F' :: ' ' :: 'T' :: 'H' :: 'E' :: ' ' ::
       'P' :: 'R' :: 'O' :: 'J' :: 'E' :: 'C' :: 'T' :: ' ' ::
       'G' :: 'U' :: 'T' :: 'E' :: 'N' :: 'B' :: 'E' :: 'R' :: 'G' :: [])
      n.getTextStrip

/-- The sibling walk of convert_html_to_json between a chapter heading and the
next one, with strict mode active (it is enabled at the first heading, before
any walk starts).  Stops at the next chapter heading; rejects any other
text-bearing tag that is not p or pre (with the two exemptions); within an
accepted p or pre with text, rejects any non-text child; silently drops
blocks without visible text. -/
def collectBlocks : List Node → Except ExtractFail (List Block)
  | [] => .ok []
  | n :: rest =>
    if isChapterHeadingNode n then .ok []
    else
      match n.tagName with
      | none => collectBlocks rest
      | some nm =>
        if nm ≠ "p" ∧ nm ≠ "pre" then
          if isTheEndMarker n then collectBlocks rest
          else if isGutenbergFooter n then collectBlocks rest
          else if has_text_content n then .error (.unrecognizedSibling nm)
          else collectBlocks rest
        else if nm = "p" then
          if has_text_content n then
            if childrenAllText n then
              (collectBlocks rest).map
                (fun bs => Block.para (normalize_html_whitespace n.getText) :: bs)
            else .error (.nestedTag "child" nm)
          else collectBlocks rest
        else
          if has_text_content n then
            if childrenAllText n then
              (collectBlocks rest).map
                (fun bs => Block.quote (normalize_html_whitespace n.getText) :: bs)
            else .error (.nestedTag "child" nm)
          else collectBlocks rest

/-- A chapter of the JSON content model. -/
structure Chapter where
  number : Int
  title : List Char
  paragraphs : List Block
deriving DecidableEq

/-- The chapter loop of convert_html_to_json over a flat list of sibling
nodes: every h2 matching the CHAPTER filter is parsed (raising on failure) and
its following siblings are walked in strict mode up to the next such heading;
other nodes are not chapter headings and contribute no chapter of their own. -/
def extractChapters : List Node → Except ExtractFail (List Chapter)
  | [] => .ok []
  | n :: rest =>
    if isChapterHeadingNode n then
      match parse_chapter_heading n.getTextStrip with
      | .error e => .error e
      | .ok (num, title) =>
        match collectBlocks rest with
        | .error e => .error e
        | .ok blocks =>
          match extractChapters rest with
          | .error e => .error e
          | .ok chs => .ok ({ number := num, title := title, paragraphs := blocks } :: chs)
    else extractChapters rest

/-! ## json_to_docx_converter.py: title case and the section plan -/

/-- Python str.capitalize(): first character upper-cased, the rest
lower-cased. -/
def capWord (w : List Char) : List Char :=
  match w with
  | [] => []
  | c :: cs => c.toUpper :: cs.map Char.toLower

/-- The lowercase_words set of `to_title_case`: articles, coordinating
conjunctions and common short prepositions. -/
def lowercaseWords : List (List Char) :=
  [['a'], ['a', 'n'], ['t', 'h', 'e'],
   ['a', 'n', 'd'], ['b', 'u', 't'], ['o', 'r'], ['n', 'o', 'r'],
   ['y', 'e', 't'], ['s', 'o'],
   ['a', 's'], ['a', 't'], ['b', 'y'], ['f', 'o', 'r'], ['i', 'n'],
   ['o', 'f'], ['o', 'n'], ['t', 'o'], ['w', 'i', 't', 'h']]

/-- The middle-and-last transformation of `to_title_case`: every word but the
last is capitalized unless it belongs to the fixed set; the last word is
capitalized unconditionally. -/
def titleMid : List (List Char) → List (List Char)
  | [] => []
  | [w] => [capWord w]
  | w :: rest =>
    (if lowercaseWords.contains w then w else capWord w) :: titleMid rest

/-- `json_to_docx_converter.to_title_case`: lower-case the whole string, split
into words, capitalize the first and last unconditionally and every other word
not in the fixed lowercase set, and re-join with single spaces. -/
def to_title_case (l : List Char) : List Char :=
  match wordsOf (l.map Char.toLower) with
  | [] => []
  | [w] => capWord w
  | w :: rest => joinSp (capWord w :: titleMid rest)

/-- Modelled from the claim wording of C9 (spec §4.3): lowercase the whole
string, then uppercase the first letter of the first and last words
unconditionally and of every other word except members of the fixed closed
set; expressed positionally over the enumerated word list. -/
def titleCaseSpec (l : List Char) : List Char :=
  joinSp ((wordsOf (l.map Char.toLower)).enum.map (fun p =>
    if p.1 = 0 ∨ p.1 = (wordsOf (l.map Char.toLower)).length - 1 then capWord p.2
    else if lowercaseWords.contains p.2 then p.2
    else capWord p.2))

/-- Start parity of a page-breaking section (WD_SECTION.ODD_PAGE /
WD_SECTION.EVEN_PAGE). -/
inductive Parity where
  | odd
  | even
deriving DecidableEq

/-- One running-header paragraph: the ordered inline content emitted into it. -/
inductive HeaderBit where
  | textRun : List Char → HeaderBit
  | tab
  | pageField
deriving DecidableEq

/-- The observable configuration `setup_section_headers` gives a section:
start parity, requested title, flags, and the three header paragraphs
(None when headers are hidden). -/
structure SectionSpec where
  parity : Parity
  headerTitle : List Char
  centerVertical : Bool
  hideHeaders : Bool
  resetNumbering : Bool
  firstHeader : Option (List HeaderBit)
  oddHeader : Option (List HeaderBit)
  evenHeader : Option (List HeaderBit)
deriving DecidableEq

/-- `json_to_docx_converter.setup_section_headers` applied to a section created
with the given start parity: clears the headers; when not hidden, the
first-page header carries only a page number, the odd-page header carries
title, tab, page number and the even-page header page number, tab, title.
Page numbering restarts exactly when reset_numbering is set. -/
def setup_section_headers (parity : Parity) (chapterTitle : List Char)
    (centerVertical hideHeaders resetNumbering : Bool) : SectionSpec :=
  { parity := parity
    headerTitle := chapterTitle
    centerVertical := centerVertical
    hideHeaders := hideHeaders
    resetNumbering := resetNumbering
    firstHeader := if hideHeaders then none else some [HeaderBit.pageField]
    oddHeader := if hideHeaders then none else
      some [HeaderBit.textRun chapterTitle, HeaderBit.tab, HeaderBit.pageField]
    evenHeader := if hideHeaders then none else
      some [HeaderBit.pageField, HeaderBit.tab, HeaderBit.textRun chapterTitle] }

/-- The two add_section call sites of `process_chapters`. -/
inductive SectionRole where
  | blankVerso
  | body
deriving DecidableEq

/-- The loop body of `process_chapters` with the index test i == 0 carried as
`first`: an even-page blank-verso section when the flag is set or this is the
first chapter (headers hidden only for the first), then the odd-page section
carrying the chapter content (numbering reset only for the first). -/
def processChaptersAux (flag : Bool) : Bool → List Chapter → List (SectionRole × SectionSpec)
  | _, [] => []
  | first, ch :: rest =>
    let t := to_title_case ch.title
    (if flag || first then
      [(SectionRole.blankVerso, setup_section_headers Parity.even t false first false)]
     else []) ++
    [(SectionRole.body, setup_section_headers Parity.odd t false false first)] ++
    processChaptersAux flag false rest

/-- `json_to_docx_converter.process_chapters`: the ordered sections it adds to
the document for a chapter list, under a given FORCE_BLANK_VERSO_PAGES flag. -/
def process_chapters (flag : Bool) (chapters : List Chapter) :
    List (SectionRole × SectionSpec) :=
  processChaptersAux flag true chapters

/-! ## html_to_docx_converter.py: bookmark validation order -/

/-- Events a run of html_to_docx_converter.process_document emits into the
in-memory document before the bookmark check: paragraphs (add_paragraph) and
section breaks (add_section). -/
inductive REvent where
  | paragraph
  | sectionBreak
deriving DecidableEq

/-- collect_bookmarks: the id attribute of every element in the tree, in
document order. -/
def bookmarkIds (root : Node) : List String :=
  (root.allElems).filterMap (fun e => e.attr "id")

/-- Is this element an internal link, an `a` whose href starts with '#'?
Returns the fragment (the href with the leading '#' removed). -/
def anchorFragment (e : Node) : Option String :=
  match e.tagName, e.attr "href" with
  | some nm, some h =>
    if nm = "a" then
      match h.data with
      | '#' :: rest => some (String.mk rest)
      | _ => none
    else none
  | _, _ => none

/-- The TOC-reference scan of process_document: every fragment referenced by
an internal hyperlink anywhere in the original source. -/
def tocReferences (root : Node) : List String :=
  (root.allElems).filterMap anchorFragment

/-- Remove duplicates keeping first occurrences (the Python set of references,
read back as a collection of distinct ids). -/
def dedupKeepFirst : List String → List String
  | [] => []
  | s :: rest =>
    if (dedupKeepFirst rest).contains s then dedupKeepFirst rest
    else s :: dedupKeepFirst rest

/-- toc_references - set(bookmarks.keys()): the required fragments that no
element id provides. -/
def missingBookmarks (root : Node) : List String :=
  (dedupKeepFirst (tocReferences root)).filter
    (fun x => !(bookmarkIds root).contains x)

/-- analyze_content: all element descendants of the root (the root itself
excluded), kept when they are a heading or paragraph with text content, or an
`a` carrying an id. -/
def analyze_content (root : Node) : List Node :=
  root.innerElems.filter (fun e =>
    (e.tagName ∈ [some "h1", some "h2", some "h3", some "h4", some "h5",
                  some "h6", some "p"] && has_text_content e) ||
    (e.tagName = some "a" && (e.attr "id").isSome))

/-- Does the element contain (strictly inside it) an `a` descendant whose href
starts with '#'?  element.find('a', href=...) in process_toc. -/
def hasInnerHashAnchor (e : Node) : Bool :=
  e.innerElems.any (fun d => (anchorFragment d).isSome)

/-- The is_toc test of process_toc: a p whose class list contains toc, or a p
containing an internal link. -/
def isTocElement (e : Node) : Bool :=
  (e.tagName = some "p" &&
    (match e.attr "class" with
     | some cls => (wordsOf cls.toList).contains ['t', 'o', 'c']
     | none => false)) ||
  (e.tagName = some "p" && hasInnerHashAnchor e)

/-- One iteration of the element loop of process_document: state is
(toc_encountered, events so far).  Elements without text and without id are
skipped; non-heading non-paragraph elements with an id only queue a pending
bookmark; TOC paragraphs, headings (an h2 after the TOC also adds a section
break) and plain paragraphs each add a paragraph to the document. -/
def docxStep (st : Bool × List REvent) (e : Node) : Bool × List REvent :=
  let hasId := (e.attr "id").isSome
  if !has_text_content e && !hasId then st
  else if hasId &&
      !(e.tagName ∈ [some "h1", some "h2", some "h3", some "h4", some "h5",
                     some "h6", some "p"]) then st
  else if isTocElement e then (true, st.2 ++ [REvent.paragraph])
  else if e.tagName ∈ [some "h1", some "h2", some "h3", some "h4", some "h5",
                       some "h6"] then
    if e.tagName = some "h2" && st.1 then
      (st.1, st.2 ++ [REvent.sectionBreak, REvent.paragraph])
    else (st.1, st.2 ++ [REvent.paragraph])
  else if e.tagName = some "p" then (st.1, st.2 ++ [REvent.paragraph])
  else st

/-- The outcome of html_to_docx_converter.process_document: the document
events emitted by the element loop, and afterwards either the missing-bookmark
failure (listing the missing ids) or a successful save. -/
structure DocxRun where
  events : List REvent
  outcome : Except (List String) Unit

/-- `html_to_docx_converter.process_document`: collect bookmarks and TOC
references, run the element loop (emitting content), then check for missing
bookmarks and only save when none are missing. -/
def process_document (root : Node) : DocxRun :=
  let evs := ((analyze_content root).foldl docxStep (false, [])).2
  { events := evs
    outcome :=
      if missingBookmarks root = [] then .ok ()
      else .error (missingBookmarks root) }

/-! ## Spec-side predicates used by the claim statements -/

deriving instance DecidableEq for Except

/-- Did a fallible computation fail? -/
def isErr {ε α : Type} : Except ε α → Bool
  | .error _ => true
  | .ok _ => false

/-- Modelled from the claim wording of C3: a sibling node between chapter
headings that strict mode must reject — either a text-bearing tag that is not
a paragraph or preformatted-quote block (and not one of the two exemptions),
or an accepted paragraph/quote block with text that contains a nested tag
(even one with no visible text of its own). -/
def strictBad (n : Node) : Prop :=
  ((n.tagName ≠ none ∧ n.tagName ≠ some "p" ∧ n.tagName ≠ some "pre") ∧
    ¬ isTheEndMarker n ∧ ¬ isGutenbergFooter n ∧ has_text_content n) ∨
  ((n.tagName = some "p" ∨ n.tagName = some "pre") ∧ has_text_content n ∧
    ∃ c ∈ n.children, c.isText = false)

instance (n : Node) : Decidable (strictBad n) := by
  unfold strictBad
  infer_instance

/-- Modelled from the claim wording of C8: the shape of normalized text —
every whitespace character is the ASCII space, no two adjacent whitespace
characters, and no leading or trailing whitespace. -/
def wsNormalForm (l : List Char) : Prop :=
  (∀ c ∈ l, pyIsSpace c = true → c = ' ') ∧
  List.Chain' (fun a b => ¬(pyIsSpace a = true ∧ pyIsSpace b = true)) l ∧
  (∀ c, l.head? = some c → pyIsSpace c = false) ∧
  (∀ c, l.getLast? = some c → pyIsSpace c = false)

/-- The adjacency relation of wsNormalForm: not two whitespace characters in
a row. -/
def wsR (a b : Char) : Prop := ¬(pyIsSpace a = true ∧ pyIsSpace b = true)

/-! ## Theorems -/

lemma romanVal_nonneg (c : Char) : 0 ≤ romanVal c := by
  unfold romanVal
  split_ifs <;> norm_num

/-- The right-to-left fold of roman_to_int computes the per-character
add-or-subtract value described by the spec, and remembers the value of the
leftmost character as its final prev state. -/
lemma romanFold_eq_spec (c : Char) (m : List Char) :
    (c :: m).reverse.foldl romanFoldStep (0, 0) =
      (romanSpecVal (c :: m), romanVal c) := by
  induction m generalizing c with
  | nil =>
    simp [romanFoldStep, romanSpecVal, if_pos (romanVal_nonneg c)]
  | cons d rest ih =>
    have : (c :: d :: rest).reverse = (d :: rest).reverse ++ [c] := by simp
    rw [this, List.foldl_append, ih d]
    simp only [List.foldl_cons, List.foldl_nil, romanFoldStep, romanSpecVal]
    split_ifs with h
    · exact Prod.ext (by dsimp; omega) rfl
    · exact Prod.ext (by dsimp; omega) rfl

lemma romanDictVal_eq_romanVal {c : Char} {v : Int}
    (h : romanDictVal? c = some v) : romanVal c = v := by
  unfold romanDictVal? at h
  unfold romanVal
  split_ifs at h ⊢ <;> exact Option.some.inj h

/-- With every character in the dictionary, the loop of roman_to_int is the
pair-state fold. -/
lemma romanLoopRL_eq_foldl : ∀ (l : List Char) (res prev : Int),
    (∀ c ∈ l, (romanDictVal? c).isSome = true) →
    romanLoopRL l res prev = .ok ((l.foldl romanFoldStep (res, prev)).1) := by
  intro l
  induction l with
  | nil => intro res prev _; rfl
  | cons c rest ih =>
    intro res prev hall
    have hc := hall c (by simp)
    cases hv : romanDictVal? c with
    | none => rw [hv] at hc; cases hc
    | some v =>
      rw [romanLoopRL, hv]
      have hstep : romanFoldStep (res, prev) c =
          (if v ≥ prev then res + v else res - v, v) := by
        simp [romanFoldStep, romanDictVal_eq_romanVal hv]
      rw [List.foldl_cons, hstep]
      exact ih _ _ (fun d hd => hall d (List.mem_cons_of_mem _ hd))

/-- A character outside the dictionary anywhere in the loop's input makes the
loop fail. -/
lemma romanLoopRL_err : ∀ (l : List Char) (res prev : Int),
    (∃ c ∈ l, romanDictVal? c = none) →
    isErr (romanLoopRL l res prev) = true := by
  intro l
  induction l with
  | nil =>
    intro res prev h
    obtain ⟨c, hc, -⟩ := h
    cases hc
  | cons c rest ih =>
    intro res prev h
    obtain ⟨d, hd, hnone⟩ := h
    rcases List.mem_cons.mp hd with he | hd2
    · rw [romanLoopRL, ← he, hnone]
      rfl
    · cases hv : romanDictVal? c with
      | none =>
        rw [romanLoopRL, hv]
        rfl
      | some v =>
        rw [romanLoopRL, hv]
        exact ih _ _ ⟨d, hd2, hnone⟩

/-- C7 (amended): roman_to_int rejects the empty token and any token with a
character that the case-insensitive class does not match; a validated token is
upper-cased, and the loop then rejects any character that is not a roman_dict
key (İ, its own uppercase, is the reachable case), otherwise computing the
right-to-left add-if-not-less-than-previous-else-subtract value of the
upper-cased token. -/
theorem roman_to_int_spec :
    isErr (roman_to_int []) = true ∧
    (∀ l : List Char, (∃ c ∈ l, isRomanCharCI c = false) →
      isErr (roman_to_int l) = true) ∧
    (∀ l : List Char, l ≠ [] → (∀ c ∈ l, isRomanCharCI c = true) →
      (∀ c ∈ l, (romanDictVal? (pyUpper c)).isSome = true) →
      roman_to_int l = .ok (romanSpecVal (l.map pyUpper))) ∧
    (∀ l : List Char, (∃ c ∈ l, romanDictVal? (pyUpper c) = none) →
      isErr (roman_to_int l) = true) := by
  refine ⟨by decide, ?_, ?_, ?_⟩
  · intro l ⟨c, hc, hbad⟩
    have hnot : ¬(l ≠ [] ∧ l.all isRomanCharCI) := by
      rintro ⟨-, hall⟩
      have := List.all_eq_true.mp hall c hc
      rw [hbad] at this
      exact Bool.false_ne_true this
    rw [roman_to_int, if_neg hnot]
    rfl
  · intro l hne hall hdict
    have hcond : l ≠ [] ∧ l.all isRomanCharCI :=
      ⟨hne, List.all_eq_true.mpr hall⟩
    have hdict2 : ∀ c ∈ (l.map pyUpper).reverse, (romanDictVal? c).isSome = true := by
      intro c hc
      rw [List.mem_reverse, List.mem_map] at hc
      obtain ⟨d, hd, rfl⟩ := hc
      exact hdict d hd
    rw [roman_to_int, if_pos hcond, romanLoopRL_eq_foldl _ 0 0 hdict2]
    have hne2 : l.map pyUpper ≠ [] := by
      simp [List.map_eq_nil_iff, hne]
    obtain ⟨c, m, hm⟩ := List.exists_cons_of_ne_nil hne2
    rw [hm, romanFold_eq_spec]
  · intro l ⟨c, hc, hnone⟩
    by_cases hcond : l ≠ [] ∧ l.all isRomanCharCI
    · rw [roman_to_int, if_pos hcond]
      refine romanLoopRL_err _ 0 0 ⟨pyUpper c, ?_, hnone⟩
      rw [List.mem_reverse]
      exact List.mem_map_of_mem _ hc
    · rw [roman_to_int, if_neg hcond]
      rfl

/-- C7 witness: the amended statement instantiated at a token with a genuinely
foreign character, at the token XIV, and at the dotted İ (validated, then
rejected by the dictionary loop). -/
theorem roman_to_int_spec_witness :
    isErr (roman_to_int ['A']) = true ∧
    roman_to_int ['X', 'I', 'V'] = .ok (romanSpecVal (['X', 'I', 'V'].map pyUpper)) ∧
    isErr (roman_to_int ['İ']) = true := by
  refine ⟨?_, ?_, ?_⟩
  · exact roman_to_int_spec.2.1 ['A'] ⟨'A', by decide, by decide⟩
  · exact roman_to_int_spec.2.2.1 ['X', 'I', 'V'] (by decide) (by decide) (by decide)
  · exact roman_to_int_spec.2.2.2 ['İ'] ⟨'İ', by decide, by decide⟩

/-- C7 counterexample: the token i consists of a character outside the set
{I,V,X,L,C,D,M}, yet roman_to_int accepts it (case-insensitively) instead of
raising. -/
theorem roman_to_int_lowercase_accepted :
    roman_to_int ['i'] = .ok 1 ∧ 'i' ∉ romanChars := by
  constructor
  · decide
  · decide

/-- The fourteen ASCII case variants of the seven Roman letters all pass the
case-insensitive class, upper-case into the same fourteen, are insensitive to
a preliminary ASCII upper-casing, and land in the dictionary. -/
lemma asciiRoman_facts {c : Char}
    (h : c ∈ ['I', 'V', 'X', 'L', 'C', 'D', 'M',
              'i', 'v', 'x', 'l', 'c', 'd', 'm']) :
    isRomanCharCI c = true ∧
    Char.toUpper c ∈ ['I', 'V', 'X', 'L', 'C', 'D', 'M',
                      'i', 'v', 'x', 'l', 'c', 'd', 'm'] ∧
    pyUpper (Char.toUpper c) = pyUpper c ∧
    (romanDictVal? (pyUpper c)).isSome = true := by
  fin_cases h <;> exact ⟨by decide, by decide, by decide, by decide⟩

/-- C10: roman_to_int is case-insensitive — any non-empty token over the
fourteen ASCII case-variant codepoints of {I,V,X,L,C,D,M} parses without
error, to the same integer as its upper-cased form. -/
theorem roman_to_int_case_insensitive (l : List Char) (h1 : l ≠ [])
    (h2 : ∀ c ∈ l, c ∈ ['I', 'V', 'X', 'L', 'C', 'D', 'M',
                        'i', 'v', 'x', 'l', 'c', 'd', 'm']) :
    roman_to_int (l.map Char.toUpper) = roman_to_int l ∧
    isErr (roman_to_int l) = false := by
  have hciL : l.all isRomanCharCI :=
    List.all_eq_true.mpr (fun c hc => (asciiRoman_facts (h2 c hc)).1)
  have hciU : (l.map Char.toUpper).all isRomanCharCI := by
    rw [List.all_eq_true]
    intro c hc
    rw [List.mem_map] at hc
    obtain ⟨d, hd, rfl⟩ := hc
    exact (asciiRoman_facts (asciiRoman_facts (h2 d hd)).2.1).1
  have hneU : l.map Char.toUpper ≠ [] := by
    simp [List.map_eq_nil_iff, h1]
  have hmap : (l.map Char.toUpper).map pyUpper = l.map pyUpper := by
    rw [List.map_map]
    exact List.map_congr_left (fun d hd => (asciiRoman_facts (h2 d hd)).2.2.1)
  have hdict : ∀ c ∈ (l.map pyUpper).reverse, (romanDictVal? c).isSome = true := by
    intro c hc
    rw [List.mem_reverse, List.mem_map] at hc
    obtain ⟨d, hd, rfl⟩ := hc
    exact (asciiRoman_facts (h2 d hd)).2.2.2
  constructor
  · rw [roman_to_int, roman_to_int, if_pos ⟨hneU, hciU⟩, if_pos ⟨h1, hciL⟩, hmap]
  · rw [roman_to_int, if_pos ⟨h1, hciL⟩, romanLoopRL_eq_foldl _ 0 0 hdict]
    rfl

/-- C10 witness: the mixed-case token xIv parses without error, to the same
value as XIV. -/
theorem roman_to_int_case_insensitive_witness :
    roman_to_int ['X', 'I', 'V'] = roman_to_int ['x', 'I', 'v'] ∧
    isErr (roman_to_int ['x', 'I', 'v']) = false := by
  have h := roman_to_int_case_insensitive ['x', 'I', 'v'] (by decide) (by decide)
  constructor
  · have he : (['x', 'I', 'v'].map Char.toUpper) = ['X', 'I', 'V'] := by decide
    rw [← he]
    exact h.1
  · exact h.2

lemma processChaptersAux_body_parity (flag : Bool) (chs : List Chapter) :
    ∀ (first : Bool) (r : SectionRole) (s : SectionSpec),
      (r, s) ∈ processChaptersAux flag first chs → r = SectionRole.body →
      s.parity = Parity.odd := by
  induction chs with
  | nil =>
    intro first r s h _
    simp [processChaptersAux] at h
  | cons ch rest ih =>
    intro first r s h hr
    subst hr
    rw [processChaptersAux] at h
    rcases List.mem_append.mp h with h1 | h2
    · rcases List.mem_append.mp h1 with hb | hc
      · rcases Bool.eq_false_or_eq_true (flag || first) with hf | hf <;>
          simp [hf] at hb
      · simp at hc
        rw [hc]
        rfl
    · exact ih false _ _ h2 rfl

lemma processChaptersAux_length_true (chs : List Chapter) :
    ∀ first, (processChaptersAux true first chs).length = 2 * chs.length := by
  induction chs with
  | nil => intro first; rfl
  | cons ch rest ih =>
    intro first
    rw [processChaptersAux]
    simp [ih false]
    omega

lemma processChaptersAux_length_false (chs : List Chapter) :
    (processChaptersAux false false chs).length = chs.length := by
  induction chs with
  | nil => rfl
  | cons ch rest ih =>
    rw [processChaptersAux]
    simp [ih]

/-- C2: for every chapter list and either value of the blank-verso flag, every
section created at the chapter-body call site of process_chapters uses an
ODD_PAGE break, and the plan emitted with the flag on is at least as long as
the plan emitted with it off. -/
theorem process_chapters_parity_and_length (chapters : List Chapter) (flag : Bool) :
    (∀ r s, (r, s) ∈ process_chapters flag chapters → r = SectionRole.body →
      s.parity = Parity.odd) ∧
    (process_chapters false chapters).length ≤ (process_chapters true chapters).length := by
  constructor
  · intro r s h hr
    exact processChaptersAux_body_parity flag chapters true r s h hr
  · rw [process_chapters, process_chapters, processChaptersAux_length_true]
    cases chapters with
    | nil => simp [processChaptersAux]
    | cons ch rest =>
      rw [processChaptersAux]
      simp [processChaptersAux_length_false]
      omega

/-- C2 witness: the parity and length facts at a concrete one-chapter input. -/
theorem process_chapters_parity_and_length_witness :
    ((SectionRole.body,
        setup_section_headers Parity.odd (to_title_case ['a']) false false true) ∈
      process_chapters false [{ number := 1, title := ['a'], paragraphs := [] }] ∧
     (setup_section_headers Parity.odd (to_title_case ['a']) false false true).parity =
       Parity.odd) ∧
    (process_chapters false [{ number := 1, title := ['a'], paragraphs := [] }]).length ≤
      (process_chapters true [{ number := 1, title := ['a'], paragraphs := [] }]).length := by
  refine ⟨⟨by decide, ?_⟩, ?_⟩
  · exact (process_chapters_parity_and_length
      [{ number := 1, title := ['a'], paragraphs := [] }] false).1 _ _ (by decide) rfl
  · exact (process_chapters_parity_and_length
      [{ number := 1, title := ['a'], paragraphs := [] }] false).2

/-- C5 (code evaluation at the failing input): with the flag off and a single
chapter, process_chapters emits the blank verso section (headers hidden) and
then the body section, which resets numbering but still populates the
even-page (left-hand) running header with the chapter title — the
reset-numbering docstring promises that header is omitted. -/
theorem first_chapter_even_header_not_suppressed :
    (process_chapters false
        [{ number := 1, title := ['h', 'o', 'm', 'e'], paragraphs := [] }]).map
      (fun p => (p.1, p.2.parity, p.2.resetNumbering, p.2.evenHeader)) =
    [(SectionRole.blankVerso, Parity.even, false, none),
     (SectionRole.body, Parity.odd, true,
      some [HeaderBit.pageField, HeaderBit.tab, HeaderBit.textRun ['H', 'o', 'm', 'e']])] := by
  decide

lemma titleMid_eq_enumFrom (ws : List (List Char)) :
    ∀ (k n : Nat), 1 ≤ k → k + ws.length = n → ws ≠ [] →
    (List.enumFrom k ws).map (fun p =>
      if p.1 = 0 ∨ p.1 = n - 1 then capWord p.2
      else if lowercaseWords.contains p.2 then p.2
      else capWord p.2) = titleMid ws := by
  induction ws with
  | nil => intro k n _ _ hne; cases hne rfl
  | cons w rest ih =>
    intro k n hk hn _
    cases rest with
    | nil =>
      have hkn : k = n - 1 := by simp at hn; omega
      simp [List.enumFrom, titleMid, hkn]
    | cons w2 rest2 =>
      have hk0 : ¬(k = 0 ∨ k = n - 1) := by
        simp only [List.length_cons] at hn
        omega
      have htail := ih (k + 1) n (by omega)
        (by simp only [List.length_cons] at hn ⊢; omega) (List.cons_ne_nil _ _)
      rw [List.enumFrom_cons, List.map_cons, htail]
      simp only [if_neg hk0]
      rfl

lemma processChaptersAux_headerTitle (flag : Bool) (chs : List Chapter) :
    ∀ (first : Bool) (r : SectionRole) (s : SectionSpec),
      (r, s) ∈ processChaptersAux flag first chs →
      s.headerTitle ∈ chs.map (fun ch => to_title_case ch.title) := by
  induction chs with
  | nil =>
    intro first r s h
    simp [processChaptersAux] at h
  | cons ch rest ih =>
    intro first r s h
    rw [processChaptersAux] at h
    rcases List.mem_append.mp h with h1 | h2
    · split at h1
      · simp at h1
        rcases h1 with ⟨-, hs⟩ | ⟨-, hs⟩ <;> (rw [hs]; simp [setup_section_headers])
      · simp at h1
        rw [h1.2]
        simp [setup_section_headers]
    · rw [List.map_cons]
      exact List.mem_cons_of_mem _ (ih false _ _ h2)

/-- C9: to_title_case lower-cases the whole string and upper-cases the first
letter of the first and last words unconditionally and of every other word not
in the fixed closed set (proved against the positional spec formulation), and
process_chapters only ever displays the to_title_case image of a stored
chapter title — the stored titles themselves are never altered. -/
theorem to_title_case_refines_spec :
    (∀ l : List Char, to_title_case l = titleCaseSpec l) ∧
    (∀ (flag : Bool) (chs : List Chapter) (r : SectionRole) (s : SectionSpec),
      (r, s) ∈ process_chapters flag chs →
      s.headerTitle ∈ chs.map (fun ch => to_title_case ch.title)) := by
  constructor
  · intro l
    unfold to_title_case titleCaseSpec
    cases hw : wordsOf (l.map Char.toLower) with
    | nil => simp [joinSp]
    | cons w rest =>
      cases rest with
      | nil => simp [List.enum, List.enumFrom, titleMid, joinSp]
      | cons w2 rest2 =>
        have htail := titleMid_eq_enumFrom (w2 :: rest2) 1 (w :: w2 :: rest2).length
          le_rfl (by simp only [List.length_cons]; omega) (List.cons_ne_nil _ _)
        rw [List.enum, List.enumFrom_cons, List.map_cons]
        simp only [Nat.zero_add]
        rw [htail]
        simp
  · intro flag chs r s h
    exact processChaptersAux_headerTitle flag chs true r s h

/-- C9 witness: the refinement and the header-title fact at concrete inputs. -/
theorem to_title_case_refines_spec_witness :
    to_title_case ['o', 'f', ' ', 'M', 'E', 'N'] = titleCaseSpec ['o', 'f', ' ', 'M', 'E', 'N'] ∧
    (setup_section_headers Parity.odd (to_title_case ['a']) false false true).headerTitle ∈
      [{ number := 1, title := ['a'], paragraphs := [] : Chapter }].map
        (fun ch => to_title_case ch.title) := by
  constructor
  · exact to_title_case_refines_spec.1 ['o', 'f', ' ', 'M', 'E', 'N']
  · exact to_title_case_refines_spec.2 false
      [{ number := 1, title := ['a'], paragraphs := [] }] SectionRole.body _ (by decide)

/-- C4 (amended): a heading that does not pass the CHAPTER-roman filter (the
case-insensitive search, whose Roman class also admits ı and İ) is simply not
a chapter heading — extraction proceeds on the remaining nodes with no error
contributed; but a heading that passes the filter while failing the full
parse — the em-dash-separated title missing, or the Roman token's conversion
failing (as for İ) — makes extraction fail rather than being excluded. -/
theorem non_matching_heading_excluded_dashless_fails :
    (∀ (n : Node) (ns : List Node), isChapterHeadingNode n = false →
      extractChapters (n :: ns) = extractChapters ns) ∧
    (∀ (n : Node) (ns : List Node), isChapterHeadingNode n = true →
      isErr (parse_chapter_heading n.getTextStrip) = true →
      isErr (extractChapters (n :: ns)) = true) := by
  constructor
  · intro n ns h
    rw [extractChapters, if_neg (by rw [h]; exact Bool.false_ne_true)]
  · intro n ns h hp
    rw [extractChapters, if_pos h]
    cases he : parse_chapter_heading n.getTextStrip with
    | error e => rfl
    | ok v => rw [he] at hp; exact absurd hp (by simp [isErr])

/-- C4 counterexample: the heading CHAPTER I (no em-dash title) passes the
chapter filter, and extraction on it fails with an error instead of excluding
it from the chapter list. -/
theorem dashless_chapter_heading_fails :
    isChapterHeadingNode
      (Node.elem "h2" [] [Node.text ['C', 'H', 'A', 'P', 'T', 'E', 'R', ' ', 'I']]) = true ∧
    isErr (extractChapters
      [Node.elem "h2" [] [Node.text ['C', 'H', 'A', 'P', 'T', 'E', 'R', ' ', 'I']]]) = true := by
  constructor
  · decide
  · decide

/-- C4 witness: the amended statement applied to the book-author heading (not
a chapter heading, skipped without error), to a dash-less CHAPTER heading
(extraction fails), and to a CHAPTER İ heading, which the filter keeps and
whose Roman conversion fails. -/
theorem non_matching_heading_excluded_witness :
    (isChapterHeadingNode (Node.elem "h2" [] [Node.text ['b', 'y', ' ', 'm', 'e']]) = false ∧
     extractChapters [Node.elem "h2" [] [Node.text ['b', 'y', ' ', 'm', 'e']]] =
       extractChapters []) ∧
    (isChapterHeadingNode
        (Node.elem "h2" [] [Node.text ['C', 'h', 'a', 'p', 't', 'e', 'r', ' ', 'V']]) = true ∧
     isErr (parse_chapter_heading
        (Node.elem "h2" [] [Node.text ['C', 'h', 'a', 'p', 't', 'e', 'r', ' ', 'V']]).getTextStrip) = true ∧
     isErr (extractChapters
        [Node.elem "h2" [] [Node.text ['C', 'h', 'a', 'p', 't', 'e', 'r', ' ', 'V']],
         Node.elem "p" [] [Node.text ['x']]]) = true) ∧
    (isChapterHeadingNode
        (Node.elem "h2" []
          [Node.text ['C', 'H', 'A', 'P', 'T', 'E', 'R', ' ', 'İ', ' ', '—', ' ', 'T']]) = true ∧
     isErr (parse_chapter_heading
        (Node.elem "h2" []
          [Node.text ['C', 'H', 'A', 'P', 'T', 'E', 'R', ' ', 'İ', ' ', '—', ' ', 'T']]).getTextStrip) = true ∧
     isErr (extractChapters
        [Node.elem "h2" []
          [Node.text ['C', 'H', 'A', 'P', 'T', 'E', 'R', ' ', 'İ', ' ', '—', ' ', 'T']]]) = true) := by
  refine ⟨⟨by decide, ?_⟩, ⟨by decide, by decide, ?_⟩, ⟨by decide, by decide, ?_⟩⟩
  · exact non_matching_heading_excluded_dashless_fails.1 _ [] (by decide)
  · exact non_matching_heading_excluded_dashless_fails.2 _ _ (by decide) (by decide)
  · exact non_matching_heading_excluded_dashless_fails.2 _ _ (by decide) (by decide)

set_option maxRecDepth 400000 in
set_option maxHeartbeats 8000000 in
lemma romanChunkA : ∀ i : Nat, i < 500 →
    roman_to_int (roman_numeral (i + 1)) = .ok ((i : Int) + 1) := by decide

set_option maxRecDepth 400000 in
set_option maxHeartbeats 8000000 in
lemma romanChunkB : ∀ i : Nat, i < 500 →
    roman_to_int (roman_numeral (i + 501)) = .ok ((i : Int) + 501) := by decide

set_option maxRecDepth 400000 in
set_option maxHeartbeats 8000000 in
lemma romanChunkC : ∀ i : Nat, i < 500 →
    roman_to_int (roman_numeral (i + 1001)) = .ok ((i : Int) + 1001) := by decide

set_option maxRecDepth 400000 in
set_option maxHeartbeats 8000000 in
lemma romanChunkD : ∀ i : Nat, i < 500 →
    roman_to_int (roman_numeral (i + 1501)) = .ok ((i : Int) + 1501) := by decide

set_option maxRecDepth 400000 in
set_option maxHeartbeats 8000000 in
lemma romanChunkE : ∀ i : Nat, i < 500 →
    roman_to_int (roman_numeral (i + 2001)) = .ok ((i : Int) + 2001) := by decide

set_option maxRecDepth 400000 in
set_option maxHeartbeats 8000000 in
lemma romanChunkF : ∀ i : Nat, i < 500 →
    roman_to_int (roman_numeral (i + 2501)) = .ok ((i : Int) + 2501) := by decide

set_option maxRecDepth 400000 in
set_option maxHeartbeats 8000000 in
lemma romanChunkG : ∀ i : Nat, i < 500 →
    roman_to_int (roman_numeral (i + 3001)) = .ok ((i : Int) + 3001) := by decide

set_option maxRecDepth 400000 in
set_option maxHeartbeats 8000000 in
lemma romanChunkH : ∀ i : Nat, i < 500 →
    roman_to_int (roman_numeral (i + 3501)) = .ok ((i : Int) + 3501) := by decide

/-- Parsing the emitted numeral recovers the integer, for the whole claimed
range. -/
lemma roman_to_int_roman_numeral (n : Nat) (h1 : 1 ≤ n) (h2 : n ≤ 3999) :
    roman_to_int (roman_numeral n) = .ok (n : Int) := by
  have step : ∀ (a : Nat), a ≤ n →
      (∀ i : Nat, i < 500 → roman_to_int (roman_numeral (i + a)) = .ok ((i : Int) + a)) →
      n < a + 500 → roman_to_int (roman_numeral n) = .ok (n : Int) := by
    intro a ha hch hlt
    have h := hch (n - a) (by omega)
    have e1 : n - a + a = n := by omega
    have e2 : ((n - a : Nat) : Int) + (a : Int) = (n : Int) := by omega
    rw [e1] at h
    rw [h, e2]
  rcases Nat.lt_or_ge n 501 with h | h
  · exact step 1 h1 romanChunkA (by omega)
  rcases Nat.lt_or_ge n 1001 with h' | h'
  · exact step 501 h romanChunkB (by omega)
  rcases Nat.lt_or_ge n 1501 with h'' | h''
  · exact step 1001 h' romanChunkC (by omega)
  rcases Nat.lt_or_ge n 2001 with h3 | h3
  · exact step 1501 h'' romanChunkD (by omega)
  rcases Nat.lt_or_ge n 2501 with h4 | h4
  · exact step 2001 h3 romanChunkE (by omega)
  rcases Nat.lt_or_ge n 3001 with h5 | h5
  · exact step 2501 h4 romanChunkF (by omega)
  rcases Nat.lt_or_ge n 3501 with h6 | h6
  · exact step 3001 h5 romanChunkG (by omega)
  exact step 3501 h6 romanChunkH (by omega)

/-- C6: for every integer 1..3999 the toRoman/fromRoman/toRoman round trip of
spec §8 reproduces the first conversion exactly. -/
theorem roman_round_trip (n : Nat) (h1 : 1 ≤ n) (h2 : n ≤ 3999) :
    romanRoundTrip n = roman_numeral n := by
  rw [romanRoundTrip, roman_to_int_roman_numeral n h1 h2]
  simp

/-- C6 witness: the round trip at 1987. -/
theorem roman_round_trip_witness :
    1 ≤ 1987 ∧ 1987 ≤ 3999 ∧ romanRoundTrip 1987 = roman_numeral 1987 :=
  ⟨by omega, by omega, roman_round_trip 1987 (by omega) (by omega)⟩

lemma collapseWS_spaces : ∀ l, ∀ c ∈ collapseWS l, pyIsSpace c = true → c = ' ' := by
  intro l
  induction l using collapseWS.induct with
  | case1 => intro c hc; simp [collapseWS] at hc
  | case2 c h =>
    intro e he _
    rw [collapseWS, if_pos h] at he
    simpa using he
  | case3 c h =>
    intro e he hws
    rw [collapseWS, if_neg h] at he
    simp at he
    rw [he] at hws
    exact absurd hws h
  | case4 c d rest h1 h2 ih =>
    intro e he hws
    rw [collapseWS, if_pos h1, if_pos h2] at he
    exact ih e he hws
  | case5 c d rest h1 h2 ih =>
    intro e he hws
    rw [collapseWS, if_pos h1, if_neg h2] at he
    rcases List.mem_cons.mp he with h | h
    · exact h
    · exact ih e h hws
  | case6 c d rest h1 ih =>
    intro e he hws
    rw [collapseWS, if_neg h1] at he
    rcases List.mem_cons.mp he with h | h
    · rw [h] at hws; exact absurd hws h1
    · exact ih e h hws

lemma collapseWS_head_not (c : Char) (cs : List Char) (h : ¬pyIsSpace c = true) :
    (collapseWS (c :: cs)).head? = some c := by
  cases cs with
  | nil => rw [collapseWS, if_neg h]; rfl
  | cons d rest => rw [collapseWS, if_neg h]; rfl

lemma collapseWS_head_ws : ∀ l, ∀ (c : Char) (cs : List Char), l = c :: cs →
    pyIsSpace c = true → (collapseWS l).head? = some ' ' := by
  intro l
  induction l using collapseWS.induct with
  | case1 => intro c cs he; cases he
  | case2 a h =>
    intro c cs he hws
    rw [collapseWS, if_pos h]
    rfl
  | case3 a h =>
    intro c cs he hws
    cases he
    exact absurd hws h
  | case4 a d rest h1 h2 ih =>
    intro c cs he hws
    rw [collapseWS, if_pos h1, if_pos h2]
    exact ih d rest rfl h2
  | case5 a d rest h1 h2 ih =>
    intro c cs he hws
    rw [collapseWS, if_pos h1, if_neg h2]
    rfl
  | case6 a d rest h1 ih =>
    intro c cs he hws
    cases he
    exact absurd hws h1

lemma collapseWS_chain : ∀ l, List.Chain' wsR (collapseWS l) := by
  intro l
  induction l using collapseWS.induct with
  | case1 => simp [collapseWS]
  | case2 c h => rw [collapseWS, if_pos h]; simp
  | case3 c h => rw [collapseWS, if_neg h]; simp
  | case4 c d rest h1 h2 ih =>
    rw [collapseWS, if_pos h1, if_pos h2]
    exact ih
  | case5 c d rest h1 h2 ih =>
    rw [collapseWS, if_pos h1, if_neg h2]
    rw [List.chain'_cons']
    refine ⟨?_, ih⟩
    intro b hb
    rw [collapseWS_head_not d rest h2] at hb
    cases hb
    intro hcon
    exact h2 hcon.2
  | case6 c d rest h1 ih =>
    rw [collapseWS, if_neg h1]
    rw [List.chain'_cons']
    refine ⟨?_, ih⟩
    intro b _ hcon
    exact h1 hcon.1

lemma pyIsSpace_space : pyIsSpace ' ' = true := by decide

lemma collapseWS_filter : ∀ l,
    (collapseWS l).filter (fun c => !pyIsSpace c) = l.filter (fun c => !pyIsSpace c) := by
  intro l
  induction l using collapseWS.induct with
  | case1 => rfl
  | case2 c h =>
    rw [collapseWS, if_pos h]
    simp [List.filter_cons, h, pyIsSpace_space]
  | case3 c h =>
    rw [collapseWS, if_neg h]
  | case4 c d rest h1 h2 ih =>
    rw [collapseWS, if_pos h1, if_pos h2, ih]
    simp [List.filter_cons, h1]
  | case5 c d rest h1 h2 ih =>
    rw [collapseWS, if_pos h1, if_neg h2]
    simp [List.filter_cons, pyIsSpace_space, h1, ih]
  | case6 c d rest h1 ih =>
    rw [collapseWS, if_neg h1]
    simp [List.filter_cons, ih]

lemma collapseWS_of_clean : ∀ l, (∀ c ∈ l, pyIsSpace c = true → c = ' ') →
    List.Chain' wsR l → collapseWS l = l := by
  intro l
  induction l using collapseWS.induct with
  | case1 => intro _ _; rfl
  | case2 c h =>
    intro hall _
    rw [collapseWS, if_pos h, hall c (by simp) h]
  | case3 c h =>
    intro _ _
    rw [collapseWS, if_neg h]
  | case4 c d rest h1 h2 ih =>
    intro hall hch
    exfalso
    rw [List.chain'_cons] at hch
    exact hch.1 ⟨h1, h2⟩
  | case5 c d rest h1 h2 ih =>
    intro hall hch
    rw [collapseWS, if_pos h1, if_neg h2]
    rw [ih (fun e he hws => hall e (List.mem_cons_of_mem _ he) hws) (List.chain'_cons.mp hch).2]
    rw [hall c (by simp) h1]
  | case6 c d rest h1 ih =>
    intro hall hch
    rw [collapseWS, if_neg h1]
    rw [ih (fun e he hws => hall e (List.mem_cons_of_mem _ he) hws) (List.chain'_cons.mp hch).2]

lemma dropWhile_noop {p : Char → Bool} : ∀ {l : List Char},
    (∀ c, l.head? = some c → p c = false) → l.dropWhile p = l := by
  intro l h
  cases l with
  | nil => rfl
  | cons c cs =>
    rw [List.dropWhile_cons, if_neg]
    rw [h c rfl]
    exact Bool.false_ne_true

lemma stripWS_of_clean_ends (l : List Char)
    (hh : ∀ c, l.head? = some c → pyIsSpace c = false)
    (hl : ∀ c, l.getLast? = some c → pyIsSpace c = false) :
    stripWS l = l := by
  rw [stripWS, dropWhile_noop hh, dropWhile_noop, List.reverse_reverse]
  intro c hc
  rw [List.head?_reverse] at hc
  exact hl c hc

lemma stripWS_eq_rdropWhile (l : List Char) :
    stripWS l = (l.dropWhile pyIsSpace).rdropWhile pyIsSpace := by
  rw [stripWS, List.rdropWhile]

lemma stripWS_sub (l : List Char) : ∀ c ∈ stripWS l, c ∈ l := by
  intro c hc
  rw [stripWS_eq_rdropWhile] at hc
  have h1 := (List.rdropWhile_prefix pyIsSpace (l.dropWhile pyIsSpace)).sublist.mem hc
  exact (List.dropWhile_suffix pyIsSpace).sublist.mem h1

lemma chain'_of_reverse {R : Char → Char → Prop} (hs : ∀ a b, R a b → R b a)
    {l : List Char} (h : List.Chain' R l) : List.Chain' R l.reverse := by
  rw [List.chain'_reverse]
  refine h.imp ?_
  intro a b hab
  exact hs a b hab

lemma stripWS_chain {l : List Char} (h : List.Chain' wsR l) :
    List.Chain' wsR (stripWS l) := by
  have hsym : ∀ a b : Char, wsR a b → wsR b a := by
    intro a b hab hcon
    exact hab ⟨hcon.2, hcon.1⟩
  have h1 : List.Chain' wsR (l.dropWhile pyIsSpace) :=
    h.suffix (List.dropWhile_suffix pyIsSpace)
  have h2 := chain'_of_reverse hsym h1
  have h3 : List.Chain' wsR ((l.dropWhile pyIsSpace).reverse.dropWhile pyIsSpace) :=
    h2.suffix (List.dropWhile_suffix pyIsSpace)
  exact chain'_of_reverse hsym h3

lemma stripWS_head (l : List Char) :
    ∀ c, (stripWS l).head? = some c → pyIsSpace c = false := by
  intro c hc
  rw [stripWS_eq_rdropWhile] at hc
  obtain ⟨t, ht⟩ := List.rdropWhile_prefix pyIsSpace (l.dropWhile pyIsSpace)
  have hhd : (l.dropWhile pyIsSpace).head? = some c := by
    rw [← ht, List.head?_append, hc]
    rfl
  have hdw : l.dropWhile pyIsSpace ≠ [] := by
    intro he
    rw [he] at hhd
    cases hhd
  have hnot := List.head_dropWhile_not pyIsSpace l hdw
  rw [List.head?_eq_head hdw, Option.some_inj] at hhd
  rw [← hhd]
  exact hnot

lemma stripWS_last (l : List Char) :
    ∀ c, (stripWS l).getLast? = some c → pyIsSpace c = false := by
  intro c hc
  rw [stripWS] at hc
  rw [List.getLast?_reverse] at hc
  have hne : (l.dropWhile pyIsSpace).reverse.dropWhile pyIsSpace ≠ [] := by
    intro he
    rw [he] at hc
    cases hc
  have hnot := List.head_dropWhile_not pyIsSpace (l.dropWhile pyIsSpace).reverse hne
  rw [List.head?_eq_head hne, Option.some_inj] at hc
  rw [← hc]
  exact hnot

lemma normalize_nf (l : List Char) : wsNormalForm (normalize_html_whitespace l) := by
  rw [normalize_html_whitespace]
  split
  · next h =>
    rw [h]
    exact ⟨by simp, by simp, by simp, by simp⟩
  · refine ⟨?_, ?_, stripWS_head _, stripWS_last _⟩
    · intro c hc hws
      exact collapseWS_spaces l c (stripWS_sub _ c hc) hws
    · exact stripWS_chain (collapseWS_chain l)

/-- C8 main: idempotence. -/
lemma normalize_ws_idem (l : List Char) :
    normalize_html_whitespace (normalize_html_whitespace l) = normalize_html_whitespace l := by
  have hnf := normalize_nf l
  set m := normalize_html_whitespace l with hm
  rw [normalize_html_whitespace]
  split
  · rfl
  · next hne =>
    obtain ⟨hall, hch, hh, hl2⟩ := hnf
    rw [collapseWS_of_clean m hall hch]
    exact stripWS_of_clean_ends m hh hl2

lemma stripWS_filter (l : List Char) :
    (stripWS l).filter (fun c => !pyIsSpace c) = l.filter (fun c => !pyIsSpace c) := by
  have hdrop : ∀ m : List Char, (m.dropWhile pyIsSpace).filter (fun c => !pyIsSpace c) =
      m.filter (fun c => !pyIsSpace c) := by
    intro m
    induction m with
    | nil => rfl
    | cons c cs ih =>
      rw [List.dropWhile_cons]
      by_cases h : pyIsSpace c = true
      · rw [if_pos h, ih, List.filter_cons]
        simp [h]
      · rw [if_neg h]
  rw [stripWS]
  rw [List.filter_reverse, hdrop, List.filter_reverse, List.reverse_reverse, hdrop]

lemma normalize_filter (l : List Char) :
    (normalize_html_whitespace l).filter (fun c => !pyIsSpace c) =
      l.filter (fun c => !pyIsSpace c) := by
  rw [normalize_html_whitespace]
  split
  · rfl
  · rw [stripWS_filter, collapseWS_filter]

/-- C8: normalize_html_whitespace is idempotent, leaves text in the collapsed
and trimmed normal form (only single interior ASCII spaces, no leading or
trailing whitespace), and touches no non-whitespace character. -/
theorem normalize_idempotent_and_collapses (l : List Char) :
    normalize_html_whitespace (normalize_html_whitespace l) = normalize_html_whitespace l ∧
    wsNormalForm (normalize_html_whitespace l) ∧
    (normalize_html_whitespace l).filter (fun c => !pyIsSpace c) =
      l.filter (fun c => !pyIsSpace c) :=
  ⟨normalize_ws_idem l, normalize_nf l, normalize_filter l⟩

lemma isErr_map {ε α β : Type} (f : α → β) (e : Except ε α) :
    isErr (e.map f) = isErr e := by
  cases e <;> rfl

lemma collectBlocks_isErr : ∀ ns : List Node,
    isErr (collectBlocks ns) = true ↔
      ∃ n ∈ ns.takeWhile (fun n => !isChapterHeadingNode n), strictBad n := by
  intro ns
  induction ns with
  | nil => simp [collectBlocks, isErr]
  | cons n rest ih =>
    by_cases hch : isChapterHeadingNode n = true
    · rw [collectBlocks, if_pos hch, List.takeWhile_cons]
      simp [isErr, hch]
    · rw [Bool.not_eq_true] at hch
      have htk : (n :: rest).takeWhile (fun m => !isChapterHeadingNode m) =
          n :: rest.takeWhile (fun m => !isChapterHeadingNode m) := by
        rw [List.takeWhile_cons, if_pos (by rw [hch]; rfl)]
      rw [collectBlocks, if_neg (by rw [hch]; exact Bool.false_ne_true), htk]
      cases hnm : n.tagName with
      | none =>
        have hbad : ¬ strictBad n := by
          intro hb
          rcases hb with ⟨⟨hne, -, -⟩, -⟩ | ⟨hpp, -, -⟩
          · exact hne hnm
          · rcases hpp with hp | hp <;> rw [hnm] at hp <;> cases hp
        simp only [List.exists_mem_cons_iff]
        rw [← ih]
        constructor
        · intro h; exact Or.inr h
        · rintro (h | h)
          · exact absurd h hbad
          · exact h
      | some nm =>
        dsimp only
        by_cases hpp : nm ≠ "p" ∧ nm ≠ "pre"
        · rw [if_pos hpp]
          by_cases hend : isTheEndMarker n = true
          · have hbad : ¬ strictBad n := by
              intro hb
              rcases hb with ⟨-, hne, -, -⟩ | ⟨hp2, -, -⟩
              · exact hne hend
              · rcases hp2 with hp | hp
                · rw [hnm] at hp; injection hp with hp'; exact hpp.1 hp'
                · rw [hnm] at hp; injection hp with hp'; exact hpp.2 hp'
            rw [if_pos hend]
            simp only [List.exists_mem_cons_iff]
            rw [← ih]
            exact ⟨Or.inr, fun h => h.elim (fun h => absurd h hbad) id⟩
          · rw [if_neg hend]
            by_cases hgut : isGutenbergFooter n = true
            · have hbad : ¬ strictBad n := by
                intro hb
                rcases hb with ⟨-, -, hne, -⟩ | ⟨hp2, -, -⟩
                · exact hne hgut
                · rcases hp2 with hp | hp
                  · rw [hnm] at hp; injection hp with hp'; exact hpp.1 hp'
                  · rw [hnm] at hp; injection hp with hp'; exact hpp.2 hp'
              rw [if_pos hgut]
              simp only [List.exists_mem_cons_iff]
              rw [← ih]
              exact ⟨Or.inr, fun h => h.elim (fun h => absurd h hbad) id⟩
            · rw [if_neg hgut]
              by_cases htxt : has_text_content n = true
              · rw [if_pos htxt]
                have hbad : strictBad n := by
                  left
                  refine ⟨⟨by rw [hnm]; exact Option.noConfusion, ?_, ?_⟩, hend, hgut, htxt⟩
                  · rw [hnm]; intro h; injection h with h'; exact hpp.1 h'
                  · rw [hnm]; intro h; injection h with h'; exact hpp.2 h'
                simp only [List.exists_mem_cons_iff]
                simp [isErr, hbad]
              · rw [if_neg htxt]
                have hbad : ¬ strictBad n := by
                  intro hb
                  rcases hb with ⟨-, -, -, ht⟩ | ⟨-, ht, -⟩ <;> exact htxt ht
                simp only [List.exists_mem_cons_iff]
                rw [← ih]
                exact ⟨Or.inr, fun h => h.elim (fun h => absurd h hbad) id⟩
        · rw [if_neg hpp]
          rw [Decidable.not_and_iff_or_not, not_not, not_not] at hpp
          have hppe : n.tagName = some "p" ∨ n.tagName = some "pre" := by
            rcases hpp with h | h
            · left; rw [hnm, h]
            · right; rw [hnm, h]
          by_cases hp : nm = "p"
          · rw [if_pos hp]
            by_cases htxt : has_text_content n = true
            · rw [if_pos htxt]
              by_cases hat : childrenAllText n = true
              · rw [if_pos hat, isErr_map]
                have hbad : ¬ strictBad n := by
                  intro hb
                  rcases hb with ⟨⟨-, hne, -⟩, -⟩ | ⟨-, -, c, hc, hct⟩
                  · exact hne (by rw [hnm, hp])
                  · rw [childrenAllText, List.all_eq_true] at hat
                    rw [hat c hc] at hct
                    cases hct
                simp only [List.exists_mem_cons_iff]
                rw [← ih]
                exact ⟨Or.inr, fun h => h.elim (fun h => absurd h hbad) id⟩
              · rw [if_neg hat]
                have hbad : strictBad n := by
                  right
                  refine ⟨hppe, htxt, ?_⟩
                  rw [childrenAllText] at hat
                  simp only [List.all_eq_true, Bool.not_eq_true] at hat
                  push_neg at hat
                  obtain ⟨c, hc, hct⟩ := hat
                  refine ⟨c, hc, ?_⟩
                  rwa [← Bool.not_eq_true]
                simp only [List.exists_mem_cons_iff]
                simp [isErr, hbad]
            · rw [if_neg htxt]
              have hbad : ¬ strictBad n := by
                intro hb
                rcases hb with ⟨-, -, -, ht⟩ | ⟨-, ht, -⟩ <;> exact htxt ht
              simp only [List.exists_mem_cons_iff]
              rw [← ih]
              exact ⟨Or.inr, fun h => h.elim (fun h => absurd h hbad) id⟩
          · rw [if_neg hp]
            by_cases htxt : has_text_content n = true
            · rw [if_pos htxt]
              by_cases hat : childrenAllText n = true
              · rw [if_pos hat, isErr_map]
                have hbad : ¬ strictBad n := by
                  intro hb
                  rcases hb with ⟨⟨-, -, hne⟩, -⟩ | ⟨-, -, c, hc, hct⟩
                  · rcases hpp with hq | hq
                    · exact hp hq
                    · exact hne (by rw [hnm, hq])
                  · rw [childrenAllText, List.all_eq_true] at hat
                    rw [hat c hc] at hct
                    cases hct
                simp only [List.exists_mem_cons_iff]
                rw [← ih]
                exact ⟨Or.inr, fun h => h.elim (fun h => absurd h hbad) id⟩
              · rw [if_neg hat]
                have hbad : strictBad n := by
                  right
                  refine ⟨hppe, htxt, ?_⟩
                  rw [childrenAllText] at hat
                  simp only [List.all_eq_true, Bool.not_eq_true] at hat
                  push_neg at hat
                  obtain ⟨c, hc, hct⟩ := hat
                  refine ⟨c, hc, ?_⟩
                  rwa [← Bool.not_eq_true]
                simp only [List.exists_mem_cons_iff]
                simp [isErr, hbad]
            · rw [if_neg htxt]
              have hbad : ¬ strictBad n := by
                intro hb
                rcases hb with ⟨-, -, -, ht⟩ | ⟨-, ht, -⟩ <;> exact htxt ht
              simp only [List.exists_mem_cons_iff]
              rw [← ih]
              exact ⟨Or.inr, fun h => h.elim (fun h => absurd h hbad) id⟩

lemma takeWhile_append_allP : ∀ (l1 l2 : List Node),
    (∀ n ∈ l1, isChapterHeadingNode n = false) →
    (l1 ++ l2).takeWhile (fun m => !isChapterHeadingNode m) =
      l1 ++ l2.takeWhile (fun m => !isChapterHeadingNode m) := by
  intro l1
  induction l1 with
  | nil => intro l2 _; rfl
  | cons n rest ih =>
    intro l2 h
    rw [List.cons_append, List.takeWhile_cons, if_pos (by rw [h n (by simp)]; rfl)]
    rw [ih l2 (fun m hm => h m (List.mem_cons_of_mem _ hm))]
    rfl

lemma extractChapters_append_skip : ∀ (body l : List Node),
    (∀ n ∈ body, isChapterHeadingNode n = false) →
    extractChapters (body ++ l) = extractChapters l := by
  intro body
  induction body with
  | nil => intro l _; rfl
  | cons n rest ih =>
    intro l h
    rw [List.cons_append, extractChapters,
        if_neg (by rw [h n (by simp)]; exact Bool.false_ne_true)]
    exact ih l (fun m hm => h m (List.mem_cons_of_mem _ hm))

/-- C3: with strict mode active (as it is from the first chapter heading on),
extraction of a chapter whose body sits between two well-formed chapter
headings fails exactly when the body contains a strict-mode violation: a
text-bearing non-paragraph non-quote sibling that is not one of the two
exemptions, or an accepted text-bearing paragraph/quote block with a nested
tag (with or without text of its own); a body of plain paragraph and quote
blocks raises no error. -/
theorem strict_mode_walk (hd1 hd2 : Node) (body : List Node)
    (hh1 : isChapterHeadingNode hd1 = true) (hh2 : isChapterHeadingNode hd2 = true)
    (hp1 : isErr (parse_chapter_heading hd1.getTextStrip) = false)
    (hp2 : isErr (parse_chapter_heading hd2.getTextStrip) = false)
    (hb : ∀ n ∈ body, isChapterHeadingNode n = false) :
    (isErr (extractChapters (hd1 :: (body ++ [hd2]))) = true ↔
      ∃ n ∈ body, strictBad n) := by
  cases hpe1 : parse_chapter_heading hd1.getTextStrip with
  | error e => rw [hpe1] at hp1; cases hp1
  | ok v1 =>
    obtain ⟨num1, title1⟩ := v1
    have hrest : extractChapters (body ++ [hd2]) =
        extractChapters [hd2] := extractChapters_append_skip body [hd2] hb
    cases hpe2 : parse_chapter_heading hd2.getTextStrip with
    | error e => rw [hpe2] at hp2; cases hp2
    | ok v2 =>
      obtain ⟨num2, title2⟩ := v2
      have hone : extractChapters [hd2] =
          .ok [{ number := num2, title := title2, paragraphs := [] }] := by
        rw [extractChapters, if_pos hh2, hpe2]
        rfl
      have htw : (body ++ [hd2]).takeWhile (fun m => !isChapterHeadingNode m) = body := by
        rw [takeWhile_append_allP body [hd2] hb, List.takeWhile_cons,
            if_neg (by rw [hh2]; simp)]
        simp
      cases hcb : collectBlocks (body ++ [hd2]) with
      | error e =>
        have hL : isErr (extractChapters (hd1 :: (body ++ [hd2]))) = true := by
          rw [extractChapters, if_pos hh1, hpe1]
          dsimp only
          rw [hcb]
          rfl
        have hex : ∃ n ∈ body, strictBad n := by
          have h1 : isErr (collectBlocks (body ++ [hd2])) = true := by rw [hcb]; rfl
          rw [collectBlocks_isErr, htw] at h1
          exact h1
        exact ⟨fun _ => hex, fun _ => hL⟩
      | ok blocks =>
        have hL : isErr (extractChapters (hd1 :: (body ++ [hd2]))) = false := by
          rw [extractChapters, if_pos hh1, hpe1]
          dsimp only
          rw [hcb]
          dsimp only
          rw [hrest, hone]
          rfl
        rw [hL]
        constructor
        · intro h; cases h
        · intro hex
          have h2 := (collectBlocks_isErr (body ++ [hd2])).mpr (by rw [htw]; exact hex)
          rw [hcb] at h2
          cases h2

/-- C3 witness: the characterization applied between the headings CHAPTER I — A
and CHAPTER II — B, with a text-bearing div as body; the div is a strict-mode
violation and extraction indeed fails on it. -/
theorem strict_mode_walk_witness :
    (isChapterHeadingNode (Node.elem "h2" []
        [Node.text ['C', 'H', 'A', 'P', 'T', 'E', 'R', ' ', 'I', ' ', '—', ' ', 'A']]) = true ∧
     isErr (parse_chapter_heading (Node.elem "h2" []
        [Node.text ['C', 'H', 'A', 'P', 'T', 'E', 'R', ' ', 'I', ' ', '—', ' ', 'A']]).getTextStrip) = false ∧
     (∀ n ∈ [Node.elem "div" [] [Node.text ['x']]], isChapterHeadingNode n = false)) ∧
    (isErr (extractChapters
        (Node.elem "h2" []
            [Node.text ['C', 'H', 'A', 'P', 'T', 'E', 'R', ' ', 'I', ' ', '—', ' ', 'A']] ::
          ([Node.elem "div" [] [Node.text ['x']]] ++
            [Node.elem "h2" []
              [Node.text ['C', 'H', 'A', 'P', 'T', 'E', 'R', ' ', 'I', 'I', ' ', '—', ' ', 'B']]]))) = true ↔
      ∃ n ∈ [Node.elem "div" [] [Node.text ['x']]], strictBad n) ∧
    isErr (extractChapters
        (Node.elem "h2" []
            [Node.text ['C', 'H', 'A', 'P', 'T', 'E', 'R', ' ', 'I', ' ', '—', ' ', 'A']] ::
          ([Node.elem "div" [] [Node.text ['x']]] ++
            [Node.elem "h2" []
              [Node.text ['C', 'H', 'A', 'P', 'T', 'E', 'R', ' ', 'I', 'I', ' ', '—', ' ', 'B']]]))) = true := by
  have hiff := strict_mode_walk
    (Node.elem "h2" [] [Node.text ['C', 'H', 'A', 'P', 'T', 'E', 'R', ' ', 'I', ' ', '—', ' ', 'A']])
    (Node.elem "h2" [] [Node.text ['C', 'H', 'A', 'P', 'T', 'E', 'R', ' ', 'I', 'I', ' ', '—', ' ', 'B']])
    [Node.elem "div" [] [Node.text ['x']]]
    (by decide) (by decide) (by decide) (by decide) (by decide)
  refine ⟨⟨by decide, by decide, by decide⟩, hiff, ?_⟩
  exact hiff.mpr ⟨Node.elem "div" [] [Node.text ['x']], List.mem_singleton.mpr rfl, by decide⟩

lemma contains_iff_mem (l : List String) (x : String) : l.contains x = true ↔ x ∈ l :=
  List.elem_iff

lemma mem_dedupKeepFirst : ∀ (l : List String) (x : String),
    x ∈ dedupKeepFirst l ↔ x ∈ l := by
  intro l
  induction l with
  | nil => intro x; simp [dedupKeepFirst]
  | cons s rest ih =>
    intro x
    rw [dedupKeepFirst]
    by_cases h : (dedupKeepFirst rest).contains s = true
    · rw [if_pos h]
      rw [ih x]
      constructor
      · intro hx
        exact List.mem_cons_of_mem _ hx
      · intro hx
        rcases List.mem_cons.mp hx with he | hx
        · rw [he]
          exact (ih s).mp ((contains_iff_mem _ _).mp h)
        · exact hx
    · rw [if_neg h]
      simp [List.mem_cons, ih x]

lemma mem_missingBookmarks (root : Node) (x : String) :
    x ∈ missingBookmarks root ↔ (x ∈ tocReferences root ∧ x ∉ bookmarkIds root) := by
  rw [missingBookmarks, List.mem_filter, mem_dedupKeepFirst _ x]
  constructor
  · rintro ⟨h1, h2⟩
    refine ⟨h1, fun hmem => ?_⟩
    rw [Bool.not_eq_eq_eq_not, Bool.not_true] at h2
    rw [(contains_iff_mem _ _).mpr hmem] at h2
    cases h2
  · rintro ⟨h1, h2⟩
    refine ⟨h1, ?_⟩
    rw [Bool.not_eq_eq_eq_not, Bool.not_true]
    cases hc : (bookmarkIds root).contains x with
    | false => rfl
    | true => exact absurd ((contains_iff_mem _ _).mp hc) h2

/-- C1 (amended): whenever some internal-link fragment has no matching element
id anywhere in the source, process_document ends in the missing-bookmark error
— carrying exactly the set of missing ids, all in the one error — and the
document is never saved; the element loop (content emission), however, has
already run by then. -/
theorem missing_bookmark_aborts_save (root : Node)
    (h : ∃ x, x ∈ tocReferences root ∧ x ∉ bookmarkIds root) :
    ∃ miss, (process_document root).outcome = Except.error miss ∧
      ∀ x, (x ∈ miss ↔ (x ∈ tocReferences root ∧ x ∉ bookmarkIds root)) := by
  have hne : missingBookmarks root ≠ [] := by
    obtain ⟨x, hx1, hx2⟩ := h
    intro hnil
    have hmm := (mem_missingBookmarks root x).mpr ⟨hx1, hx2⟩
    rw [hnil] at hmm
    cases hmm
  refine ⟨missingBookmarks root, ?_, fun x => mem_missingBookmarks root x⟩
  rw [process_document]
  dsimp only
  rw [if_neg hne]

/-- C1 witness: the amended statement at a one-paragraph document whose only
link references the absent id intro. -/
theorem missing_bookmark_aborts_save_witness :
    (∃ x, x ∈ tocReferences (Node.elem "body" []
        [Node.elem "p" [] [Node.elem "a" [("href", "#intro")] [Node.text ['c']]],
         Node.elem "p" [("id", "keep")] [Node.text ['t']]]) ∧
      x ∉ bookmarkIds (Node.elem "body" []
        [Node.elem "p" [] [Node.elem "a" [("href", "#intro")] [Node.text ['c']]],
         Node.elem "p" [("id", "keep")] [Node.text ['t']]])) ∧
    (∃ miss, (process_document (Node.elem "body" []
        [Node.elem "p" [] [Node.elem "a" [("href", "#intro")] [Node.text ['c']]],
         Node.elem "p" [("id", "keep")] [Node.text ['t']]])).outcome = Except.error miss ∧
      ∀ x, (x ∈ miss ↔ (x ∈ tocReferences (Node.elem "body" []
        [Node.elem "p" [] [Node.elem "a" [("href", "#intro")] [Node.text ['c']]],
         Node.elem "p" [("id", "keep")] [Node.text ['t']]]) ∧
        x ∉ bookmarkIds (Node.elem "body" []
        [Node.elem "p" [] [Node.elem "a" [("href", "#intro")] [Node.text ['c']]],
         Node.elem "p" [("id", "keep")] [Node.text ['t']]])))) := by
  refine ⟨⟨"intro", by decide, by decide⟩, ?_⟩
  exact missing_bookmark_aborts_save _ ⟨"intro", by decide, by decide⟩

/-- C1 counterexample: on that same kind of input the element loop has already
emitted document content (a paragraph) before the missing-bookmark error is
raised — the error does not precede all render calls. -/
theorem render_events_precede_missing_error :
    (process_document (Node.elem "body" []
        [Node.elem "p" [] [Node.elem "a" [("href", "#intro")] [Node.text ['c']]]])).events ≠ [] ∧
    (process_document (Node.elem "body" []
        [Node.elem "p" [] [Node.elem "a" [("href", "#intro")] [Node.text ['c']]]])).outcome =
      Except.error ["intro"] := by
  constructor
  · decide
  · decide
